import Mathlib

/-!
Shallow embedding of the jankloada mod-list core
(src/jankloada-lib/src/mod_data.rs and the pure path logic of
src/jankloada-lib/src/data_manager.rs), with theorems settling the
specification claims about it.
-/

namespace Jankloada

/-- One mod entry (`ModEntry` in mod_data.rs).  The Rust `ModUUID` newtype
over `String` is modelled as a plain `String`. -/
structure ModEntry where
  uuid : String
  name : String
  active : Bool
  category : String
  game : String
  owned : Bool
  packfile : String
  short : String
deriving DecidableEq

/-- `ModProfile` from mod_data.rs: a name plus an ordered list of mod
identifiers. -/
structure ModProfile where
  name : String
  active_mods : List String
deriving DecidableEq

/-- The external flat record `ModEntryDTO` from mod_data.rs, carrying an
explicit integer `order` field (`usize` modelled as `Nat`). -/
structure ModEntryDTO where
  uuid : String
  name : String
  active : Bool
  category : String
  game : String
  order : Nat
  owned : Bool
  packfile : String
  short : String
deriving DecidableEq

/-- `ModList::deactivate_all`: set every entry's `active` flag to `false`. -/
def deactivateAll (l : List ModEntry) : List ModEntry :=
  l.map (fun m => { m with active := false })

/-- The lookup-and-remove step of `ModList::apply_profile`
(`in_profile.iter().position(|e| &e.uuid == m).map(|i| in_profile.remove(i))`):
find the first entry with the given uuid; return it with the remaining pool. -/
def extractFirst (u : String) : List ModEntry → Option (ModEntry × List ModEntry)
  | [] => none
  | e :: rest =>
    if e.uuid = u then some (e, rest)
    else
      match extractFirst u rest with
      | some (x, rest2) => some (x, e :: rest2)
      | none => none

/-- The `filter_map` pass of `ModList::apply_profile`: walk the profile's
identifier sequence in order, consuming from the claimed pool; returns the
placed entries (in profile order) and the leftover pool. -/
def orderByProfile (ids : List String) (pool : List ModEntry) :
    List ModEntry × List ModEntry :=
  match ids with
  | [] => ([], pool)
  | u :: rest =>
    match extractFirst u pool with
    | some (e, pool2) =>
      let r := orderByProfile rest pool2
      (e :: r.1, r.2)
    | none => orderByProfile rest pool

/-- `ModList::apply_profile`: deactivate everything, partition into
claimed/unclaimed by profile membership, activate the claimed entries,
re-sequence them into profile order, then append leftover claimed entries and
the unclaimed partition. -/
def applyProfile (l : List ModEntry) (p : ModProfile) : List ModEntry :=
  let l2 := deactivateAll l
  let parts := l2.partition (fun m => p.active_mods.contains m.uuid)
  let inProfile := parts.1.map (fun m => { m with active := true })
  let placed := orderByProfile p.active_mods inProfile
  placed.1 ++ placed.2 ++ parts.2

/-- `ModList::set_mod_active_state`: `get_mut(index)` fails iff the index is
out of bounds; on success only the `active` flag at that position is set.
Modelled with explicit state passing: the (possibly updated) list together
with the returned `Result`. -/
def set_mod_active_state (l : List ModEntry) (index : Nat) (b : Bool) :
    List ModEntry × Except String Unit :=
  match l.get? index with
  | some m => (l.set index { m with active := b }, Except.ok ())
  | none => (l, Except.error ("as"))

/-- One step of `From<ModList> for ModFileDTO`: the record for entry `m` at
0-based index `i`, with `order: i + 1` ("Launcher treats 0 as last"). -/
def entryToDTO (i : Nat) (m : ModEntry) : ModEntryDTO :=
  { uuid := m.uuid, name := m.name, active := m.active, category := m.category,
    game := m.game, order := i + 1, owned := m.owned, packfile := m.packfile,
    short := m.short }

/-- The `.enumerate().map(...)` loop of the export conversion, with the
running 0-based index made explicit. -/
def toDTOFrom (i : Nat) : List ModEntry → List ModEntryDTO
  | [] => []
  | m :: rest => entryToDTO i m :: toDTOFrom (i + 1) rest

/-- `From<ModList> for ModFileDTO` (export). -/
def modListToDTO (l : List ModEntry) : List ModEntryDTO :=
  toDTOFrom 0 l

/-- The map step of `From<ModFileDTO> for ModList`: drop the `order` field. -/
def dtoToEntry (m : ModEntryDTO) : ModEntry :=
  { uuid := m.uuid, name := m.name, active := m.active, category := m.category,
    game := m.game, owned := m.owned, packfile := m.packfile, short := m.short }

/-- The comparison underlying `dto.0.sort_by_key(|m| m.order)`. -/
def orderLE (a b : ModEntryDTO) : Bool :=
  a.order ≤ b.order

/-- The ascending stable sort by `order` performed by the import conversion.
Rust's `sort_by_key` is a stable sort; it is modelled by `List.mergeSort`,
which is stable and sorting, hence computes the same list. -/
def importSort (dl : List ModEntryDTO) : List ModEntryDTO :=
  dl.mergeSort orderLE

/-- `From<ModFileDTO> for ModList` (import): stable-sort by `order`, then drop
the `order` fields. -/
def modListFromDTO (dl : List ModEntryDTO) : List ModEntry :=
  (importSort dl).map dtoToEntry

/-- The descriptive fields of an entry: everything except the mutable
`active` flag. -/
def descr (m : ModEntry) :
    String × String × String × String × Bool × String × String :=
  (m.uuid, m.name, m.category, m.game, m.owned, m.packfile, m.short)

/-- Sample entry taken from the repository's own test
(`applying_profile_works`). -/
def sampleEntry : ModEntry :=
  { uuid := "one", name := "One", active := false, category := "foo",
    game := "foo", owned := true, packfile := "/foo.pack",
    short := "the foo mod" }

/-- Second sample entry from the repository's test. -/
def sampleEntry2 : ModEntry :=
  { uuid := "two", name := "Two", active := true, category := "foo",
    game := "foo", owned := true, packfile := "/foo.pack",
    short := "the foo mod" }

/-- Sample profile from the repository's test. -/
def sampleProfile : ModProfile :=
  { name := "some_profile", active_mods := ["one"] }

/-- The claimed partition of `apply_profile`, activated: sub-expression of the
translation (partition first component, then `active := true`). -/
def claimedPool (l : List ModEntry) (p : ModProfile) : List ModEntry :=
  ((deactivateAll l).filter (fun m => p.active_mods.contains m.uuid)).map
    (fun m => { m with active := true })

/-- The unclaimed partition of `apply_profile` (partition second component). -/
def unclaimedPart (l : List ModEntry) (p : ModProfile) : List ModEntry :=
  (deactivateAll l).filter (fun m => !(p.active_mods.contains m.uuid))

/-- Spec side of the order-correctness claim: a sequence of identifiers
restricted to first occurrences (under the uniqueness invariant each listed
identifier names at most one entry, so later duplicates select nothing). -/
def dedupFirst : List String → List String
  | [] => []
  | u :: rest => u :: dedupFirst (rest.filter (fun v => v ≠ u))
termination_by l => l.length
decreasing_by
  simp only [List.length_cons]
  exact Nat.lt_succ_of_le (List.length_filter_le _ rest)

/-- Spec side of the order-correctness claim ("ordered exactly as P's
identifier sequence, restricted to identifiers present in L"): for each
identifier of P in order (first occurrences, present in L), the first entry
of L carrying it, activated. -/
def claimedSpec (l : List ModEntry) (p : ModProfile) : List ModEntry :=
  (dedupFirst (p.active_mods.filter
      (fun u => (l.map (fun m => m.uuid)).contains u))).filterMap
    (fun u => (l.find? (fun m => m.uuid == u)).map
      (fun m => { m with active := true }))

/-- Spec side of the order-correctness claim: the entries whose identifier
does not appear in P, in L's original relative order, deactivated. -/
def unclaimedSpec (l : List ModEntry) (p : ModProfile) : List ModEntry :=
  (l.filter (fun m => !(p.active_mods.contains m.uuid))).map
    (fun m => { m with active := false })

/-- Index of the last dot in a file name, if any (Rust `Path` semantics look
after the last dot of the final component; file names are modelled as
character lists). -/
def lastDot : List Char → Option Nat
  | [] => none
  | c :: rest =>
    match lastDot rest with
    | some i => some (i + 1)
    | none => if c = '.' then some 0 else none

/-- Rust `PathBuf::set_extension("toml")` on a bare file-name component, as
`DataManager::resolve_profile_path` performs after `data_dir.join(name)`:
the portion after the last dot is replaced by `toml`; a dot at position 0
does not begin an extension; a name without an extension gets `.toml`
appended. -/
def setExtensionToml (f : List Char) : List Char :=
  match lastDot f with
  | some i =>
    if 0 < i then f.take i ++ ('.' :: "toml".toList)
    else f ++ ('.' :: "toml".toList)
  | none => f ++ ('.' :: "toml".toList)

/-- The file name (relative to the application data directory) under which
`DataManager::save_profile` stores a profile with the given name. -/
def resolveProfileFileName (name : List Char) : List Char :=
  setExtensionToml name

/-- Rust `Path::extension()`: the characters after the last dot, provided
that dot is not the leading character of the file name. -/
def extensionOf (f : List Char) : Option (List Char) :=
  match lastDot f with
  | some i => if 0 < i then some (f.drop (i + 1)) else none
  | none => none

/-- Rust `str::replace(".toml", "")` as used by `DataManager::list_profiles`
on each file name: remove every non-overlapping occurrence of `.toml`,
scanning left to right. -/
def stripToml : List Char → List Char
  | '.' :: 't' :: 'o' :: 'm' :: 'l' :: rest => stripToml rest
  | c :: rest => c :: stripToml rest
  | [] => []

/-- `DataManager::list_profiles` restricted to its pure file-name logic:
from a directory listing, keep the files whose extension is `toml`, then
strip every `.toml` occurrence from each file name. -/
def listProfiles (files : List (List Char)) : List (List Char) :=
  (files.filter (fun f => extensionOf f == some ("toml".toList))).map
    stripToml

theorem applyProfile_eq (l : List ModEntry) (p : ModProfile) :
    applyProfile l p =
      (orderByProfile p.active_mods (claimedPool l p)).1 ++
      (orderByProfile p.active_mods (claimedPool l p)).2 ++
      unclaimedPart l p := by
  simp [applyProfile, claimedPool, unclaimedPart, List.partition_eq_filter_filter,
    Function.comp_def]

theorem extractFirst_some_structure {u : String} :
    ∀ {l : List ModEntry} {e : ModEntry} {rest : List ModEntry},
    extractFirst u l = some (e, rest) →
    e.uuid = u ∧ ∃ l1 l2, l = l1 ++ e :: l2 ∧ rest = l1 ++ l2 ∧
      ∀ x ∈ l1, x.uuid ≠ u := by
  intro l
  induction l with
  | nil => intro e rest h; simp [extractFirst] at h
  | cons a t ih =>
    intro e rest h
    simp only [extractFirst] at h
    split at h
    · rename_i hu
      injection h with h1
      injection h1 with he hr
      subst he; subst hr
      exact ⟨hu, [], t, rfl, rfl, by intro x hx; cases hx⟩
    · rename_i hu
      cases hmatch : extractFirst u t with
      | none => rw [hmatch] at h; exact Option.noConfusion h
      | some pr =>
        obtain ⟨x, rest2⟩ := pr
        rw [hmatch] at h
        injection h with h1
        injection h1 with he hr
        subst he; subst hr
        obtain ⟨hx, l1, l2, ht, hr2, hl1⟩ := ih hmatch
        refine ⟨hx, a :: l1, l2, by rw [ht]; rfl, by simp [hr2], ?_⟩
        intro y hy
        rcases List.mem_cons.mp hy with rfl | hy2
        · exact hu
        · exact hl1 y hy2

theorem extractFirst_perm {u : String} {l : List ModEntry} {e : ModEntry}
    {rest : List ModEntry} (h : extractFirst u l = some (e, rest)) :
    l.Perm (e :: rest) := by
  obtain ⟨-, l1, l2, hl, hr, -⟩ := extractFirst_some_structure h
  subst hl; subst hr
  exact List.perm_middle

theorem extractFirst_eq_none_of_forall {u : String} {l : List ModEntry}
    (h : ∀ e ∈ l, e.uuid ≠ u) : extractFirst u l = none := by
  induction l with
  | nil => rfl
  | cons a t ih =>
    have ha : a.uuid ≠ u := h a (List.mem_cons_self a t)
    have ht : extractFirst u t = none :=
      ih (fun e he => h e (List.mem_cons_of_mem a he))
    simp [extractFirst, ha, ht]

theorem extractFirst_ne_none_of_mem {u : String} {l : List ModEntry}
    {e : ModEntry} (he : e ∈ l) (hu : e.uuid = u) :
    extractFirst u l ≠ none := by
  induction he with
  | head t => simp [extractFirst, hu]
  | tail a _ ih =>
    rename_i t _
    simp only [extractFirst]
    by_cases ha : a.uuid = u
    · simp [ha]
    · cases hmatch : extractFirst u t with
      | none => exact absurd hmatch ih
      | some pr => simp [ha, hmatch]

theorem forall_of_extractFirst_eq_none {u : String} {l : List ModEntry}
    (h : extractFirst u l = none) : ∀ e ∈ l, e.uuid ≠ u := by
  intro e he hu
  exact extractFirst_ne_none_of_mem he hu h

theorem orderByProfile_perm (ids : List String) (pool : List ModEntry) :
    ((orderByProfile ids pool).1 ++ (orderByProfile ids pool).2).Perm pool := by
  induction ids generalizing pool with
  | nil => simp [orderByProfile]
  | cons u rest ih =>
    simp only [orderByProfile]
    cases hmatch : extractFirst u pool with
    | none => exact ih pool
    | some pr =>
      obtain ⟨e, pool2⟩ := pr
      simp only [List.cons_append]
      exact ((ih pool2).cons e).trans (extractFirst_perm hmatch).symm

theorem claimedPool_eq (l : List ModEntry) (p : ModProfile) :
    claimedPool l p =
      (l.filter (fun m => p.active_mods.contains m.uuid)).map
        (fun m => { m with active := true }) := by
  induction l with
  | nil => rfl
  | cons a t ih =>
    simp only [claimedPool, deactivateAll, List.map_cons, List.filter_cons]
      at ih ⊢
    by_cases h : p.active_mods.contains a.uuid
    · simp only [h, if_true, List.map_cons]
      rw [ih]
    · simp only [h]
      simpa using ih

theorem unclaimedPart_eq (l : List ModEntry) (p : ModProfile) :
    unclaimedPart l p =
      (l.filter (fun m => !(p.active_mods.contains m.uuid))).map
        (fun m => { m with active := false }) := by
  induction l with
  | nil => rfl
  | cons a t ih =>
    simp only [unclaimedPart, deactivateAll, List.map_cons, List.filter_cons]
      at ih ⊢
    by_cases h : p.active_mods.contains a.uuid
    · simp only [h]
      simpa using ih
    · simp only [h]
      simp only [Bool.not_false, if_true, List.map_cons]
      rw [ih]

theorem claimed_unclaimed_perm (l : List ModEntry) (p : ModProfile) :
    (claimedPool l p ++ unclaimedPart l p).Perm
      (l.map (fun m => { m with active := p.active_mods.contains m.uuid })) := by
  rw [claimedPool_eq, unclaimedPart_eq]
  have h1 : (l.filter (fun m => p.active_mods.contains m.uuid)).map
      (fun m => { m with active := true }) =
      (l.filter (fun m => p.active_mods.contains m.uuid)).map
      (fun m => { m with active := p.active_mods.contains m.uuid }) := by
    apply List.map_congr_left
    intro a ha
    have hc := (List.mem_filter.mp ha).2
    rw [hc]
  have h2 : (l.filter (fun m => !(p.active_mods.contains m.uuid))).map
      (fun m => { m with active := false }) =
      (l.filter (fun m => !(p.active_mods.contains m.uuid))).map
      (fun m => { m with active := p.active_mods.contains m.uuid }) := by
    apply List.map_congr_left
    intro a ha
    have hc := (List.mem_filter.mp ha).2
    simp only [Bool.not_eq_eq_eq_not, Bool.not_true] at hc
    rw [hc]
  rw [h1, h2, ← List.map_append]
  exact (List.filter_append_perm _ l).map _

theorem set_get?_self {α : Type} {l : List α} {i : Nat} {a : α}
    (h : l.get? i = some a) : l.set i a = l := by
  rw [List.get?_eq_getElem?] at h
  have hlt : i < l.length := by
    by_contra hge
    rw [List.getElem?_eq_none (Nat.le_of_not_lt hge)] at h
    exact Option.noConfusion h
  apply List.ext_getElem?
  intro n
  rw [List.getElem?_set]
  by_cases hn : i = n
  · subst hn
    simp [hlt, h.symm]
  · simp [hn]

theorem applyProfile_perm_update (l : List ModEntry) (p : ModProfile) :
    (applyProfile l p).Perm
      (l.map (fun m => { m with active := p.active_mods.contains m.uuid })) := by
  rw [applyProfile_eq]
  exact ((orderByProfile_perm p.active_mods (claimedPool l p)).append_right
    (unclaimedPart l p)).trans (claimed_unclaimed_perm l p)

/-- C2: after `apply_profile(L, P)`, every entry whose identifier is in P's
identifier sequence is active, and every entry whose identifier is absent
from P's sequence is inactive. -/
theorem apply_profile_activation (l : List ModEntry) (p : ModProfile) :
    ∀ m ∈ applyProfile l p, m.active = p.active_mods.contains m.uuid := by
  intro m h
  rw [applyProfile_eq] at h
  rcases List.mem_append.mp h with h1 | hout
  · have hpool : m ∈ claimedPool l p :=
      (orderByProfile_perm p.active_mods (claimedPool l p)).mem_iff.mp h1
    rw [claimedPool_eq] at hpool
    obtain ⟨m0, hm0, rfl⟩ := List.mem_map.mp hpool
    have hc := (List.mem_filter.mp hm0).2
    simpa using hc.symm
  · rw [unclaimedPart_eq] at hout
    obtain ⟨m0, hm0, rfl⟩ := List.mem_map.mp hout
    have hc := (List.mem_filter.mp hm0).2
    simp only [Bool.not_eq_eq_eq_not, Bool.not_true] at hc
    simpa using hc.symm

/-- Witness for C2 on the repository's own test data. -/
theorem apply_profile_activation_witness :
    ({ sampleEntry with active := true } ∈
      applyProfile [sampleEntry, sampleEntry2] sampleProfile) ∧
    ({ sampleEntry with active := true }).active =
      sampleProfile.active_mods.contains
        ({ sampleEntry with active := true }).uuid :=
  ⟨by decide,
    apply_profile_activation [sampleEntry, sampleEntry2] sampleProfile
      { sampleEntry with active := true } (by decide)⟩

/-- C3: `apply_profile(L, P)` is a permutation of L's entries with only the
`active` flags updated: same multiset of identifiers, same count; no entry is
created, dropped, or duplicated, and unmatched profile identifiers produce no
entry (the function is total, so no failure is possible). -/
theorem apply_profile_permutation (l : List ModEntry) (p : ModProfile) :
    (applyProfile l p).Perm
      (l.map (fun m => { m with active := p.active_mods.contains m.uuid })) ∧
    ((applyProfile l p).map (fun m => m.uuid)).Perm
      (l.map (fun m => m.uuid)) ∧
    (applyProfile l p).length = l.length := by
  have h := applyProfile_perm_update l p
  refine ⟨h, ?_, ?_⟩
  · have h2 := h.map (fun m => m.uuid)
    rw [List.map_map] at h2
    simpa [Function.comp_def] using h2
  · rw [h.length_eq, List.length_map]

/-- C7: `set_mod_active_state` fails (with the Rust `anyhow` error, modelled
as the `Except.error` branch) iff the position is out of bounds; the list is
unmodified on failure, and on success only the `active` flag of the entry at
the given position is set to the requested value. -/
theorem set_active_bounds (l : List ModEntry) (i : Nat) (b : Bool) :
    ((set_mod_active_state l i b).2 = Except.error ("as") ↔ l.length ≤ i) ∧
    (l.length ≤ i → (set_mod_active_state l i b).1 = l) ∧
    (∀ m, l.get? i = some m →
      (set_mod_active_state l i b).2 = Except.ok () ∧
      (set_mod_active_state l i b).1 = l.set i { m with active := b } ∧
      ((set_mod_active_state l i b).1).get? i = some { m with active := b } ∧
      ∀ j, j ≠ i → ((set_mod_active_state l i b).1).get? j = l.get? j) := by
  unfold set_mod_active_state
  cases hm : l.get? i with
  | none =>
    have hlen : l.length ≤ i := by
      rw [List.get?_eq_getElem?] at hm
      exact List.getElem?_eq_none_iff.mp hm
    refine ⟨⟨fun _ => hlen, fun _ => rfl⟩, fun _ => rfl, ?_⟩
    intro m hsome
    exact Option.noConfusion hsome
  | some m =>
    have hlt : i < l.length := by
      rw [List.get?_eq_getElem?] at hm
      exact (List.getElem?_eq_some_iff.mp hm).choose
    refine ⟨⟨fun hc => Except.noConfusion hc, fun hle => absurd hlt (Nat.not_lt.mpr hle)⟩,
      fun hle => absurd hlt (Nat.not_lt.mpr hle), ?_⟩
    intro m2 hsome
    injection hsome with hm2
    subst hm2
    refine ⟨rfl, rfl, ?_, ?_⟩
    · rw [List.get?_eq_getElem?]
      exact List.getElem?_set_self hlt
    · intro j hj
      rw [List.get?_eq_getElem?, List.get?_eq_getElem?]
      exact List.getElem?_set_ne (fun he => hj he.symm)

/-- Witness for C7: in-bounds update on a one-entry list. -/
theorem set_active_bounds_witness :
    ([sampleEntry].get? 0 = some sampleEntry) ∧
    ((set_mod_active_state [sampleEntry] 0 true).2 = Except.ok () ∧
      (set_mod_active_state [sampleEntry] 0 true).1 =
        [sampleEntry].set 0 { sampleEntry with active := true } ∧
      ((set_mod_active_state [sampleEntry] 0 true).1).get? 0 =
        some { sampleEntry with active := true } ∧
      ∀ j, j ≠ 0 → ((set_mod_active_state [sampleEntry] 0 true).1).get? j =
        [sampleEntry].get? j) :=
  ⟨rfl, (set_active_bounds [sampleEntry] 0 true).2.2 sampleEntry rfl⟩

/-- C8: every in-core operation (`deactivate_all`, `set_mod_active_state`,
`apply_profile`) preserves each entry's identifier and descriptive fields:
matching by multiset, only `active` flags and positions may differ. -/
theorem operations_frame (l : List ModEntry) (p : ModProfile) (i : Nat)
    (b : Bool) :
    (deactivateAll l).map descr = l.map descr ∧
    ((set_mod_active_state l i b).1).map descr = l.map descr ∧
    ((applyProfile l p).map descr).Perm (l.map descr) := by
  refine ⟨?_, ?_, ?_⟩
  · simp [deactivateAll, List.map_map, descr, Function.comp_def]
  · unfold set_mod_active_state
    cases hm : l.get? i with
    | none => rfl
    | some m =>
      simp only [List.map_set]
      apply set_get?_self
      rw [List.get?_eq_getElem?, List.getElem?_map, ← List.get?_eq_getElem?, hm]
      rfl
  · have h := (applyProfile_perm_update l p).map descr
    rw [List.map_map] at h
    simpa [Function.comp_def, descr] using h

theorem toDTOFrom_length (i : Nat) (l : List ModEntry) :
    (toDTOFrom i l).length = l.length := by
  induction l generalizing i with
  | nil => rfl
  | cons a t ih => simp [toDTOFrom, ih]

theorem toDTOFrom_getElem? (i j : Nat) (l : List ModEntry) :
    (toDTOFrom i l)[j]? = (l[j]?).map (fun m => entryToDTO (i + j) m) := by
  induction l generalizing i j with
  | nil => simp [toDTOFrom]
  | cons a t ih =>
    cases j with
    | zero => simp [toDTOFrom]
    | succ j2 =>
      simp only [toDTOFrom, List.getElem?_cons_succ]
      rw [ih (i + 1) j2]
      have harith : i + 1 + j2 = i + (j2 + 1) := by omega
      rw [harith]

theorem toDTOFrom_order_lt (i : Nat) (l : List ModEntry) :
    ∀ d ∈ toDTOFrom i l, i < d.order := by
  induction l generalizing i with
  | nil => intro d hd; cases hd
  | cons a t ih =>
    intro d hd
    rcases List.mem_cons.mp hd with rfl | hd2
    · simp [entryToDTO]
    · exact Nat.lt_of_le_of_lt (Nat.le_succ i) (ih (i + 1) d hd2)

theorem toDTOFrom_sorted (i : Nat) (l : List ModEntry) :
    (toDTOFrom i l).Pairwise (fun a b => orderLE a b = true) := by
  induction l generalizing i with
  | nil => exact List.Pairwise.nil
  | cons a t ih =>
    refine List.Pairwise.cons ?_ (ih (i + 1))
    intro d hd
    have hlt := toDTOFrom_order_lt (i + 1) t d hd
    simp only [orderLE, entryToDTO, decide_eq_true_eq]
    omega

theorem dtoToEntry_entryToDTO (i : Nat) (m : ModEntry) :
    dtoToEntry (entryToDTO i m) = m := rfl

theorem map_dtoToEntry_toDTOFrom (i : Nat) (l : List ModEntry) :
    (toDTOFrom i l).map dtoToEntry = l := by
  induction l generalizing i with
  | nil => rfl
  | cons a t ih => simp [toDTOFrom, ih, dtoToEntry_entryToDTO]

/-- C6: export assigns each entry's external `order` field the value
`position + 1` (0-based position in the list); in particular it never assigns
`order = 0`. -/
theorem export_order_fields (l : List ModEntry) :
    (∀ j, j < l.length →
      ((modListToDTO l)[j]?).map (fun d => d.order) = some (j + 1)) ∧
    (∀ d ∈ modListToDTO l, d.order ≠ 0) := by
  constructor
  · intro j hj
    have hq := toDTOFrom_getElem? 0 j l
    rw [List.getElem?_eq_getElem hj] at hq
    rw [modListToDTO, hq]
    simp [entryToDTO]
  · intro d hd
    have := toDTOFrom_order_lt 0 l d hd
    omega

/-- Witness for C6 on a one-entry list. -/
theorem export_order_fields_witness :
    (0 < ([sampleEntry] : List ModEntry).length ∧
      ((modListToDTO [sampleEntry])[0]?).map (fun d => d.order) =
        some (0 + 1)) ∧
    (entryToDTO 0 sampleEntry ∈ modListToDTO [sampleEntry] ∧
      (entryToDTO 0 sampleEntry).order ≠ 0) :=
  ⟨⟨by decide, (export_order_fields [sampleEntry]).1 0 (by decide)⟩,
   ⟨by decide,
    (export_order_fields [sampleEntry]).2 (entryToDTO 0 sampleEntry)
      (by decide)⟩⟩

/-- C4: importing the export of a list reproduces it exactly (entries, field
values and sequence order), for any list free of duplicate identifiers. -/
theorem import_export_round_trip (l : List ModEntry)
    (h : (l.map (fun m => m.uuid)).Nodup) :
    modListFromDTO (modListToDTO l) = l := by
  unfold modListFromDTO importSort modListToDTO
  rw [List.mergeSort_of_sorted (toDTOFrom_sorted 0 l)]
  exact map_dtoToEntry_toDTOFrom 0 l

/-- Witness for C4 on the repository's two-entry test list. -/
theorem import_export_round_trip_witness :
    (([sampleEntry, sampleEntry2].map (fun m => m.uuid)).Nodup) ∧
    modListFromDTO (modListToDTO [sampleEntry, sampleEntry2]) =
      [sampleEntry, sampleEntry2] :=
  ⟨by decide, import_export_round_trip [sampleEntry, sampleEntry2] (by decide)⟩

theorem orderLE_trans (a b c : ModEntryDTO) :
    orderLE a b → orderLE b c → orderLE a c := by
  simp only [orderLE, decide_eq_true_eq]
  omega

theorem orderLE_total (a b : ModEntryDTO) : orderLE a b || orderLE b a := by
  simp only [orderLE]
  by_cases h : a.order ≤ b.order
  · simp [h]
  · simp [h, Nat.le_of_not_le h]

theorem importSort_filter_order (dl : List ModEntryDTO) (k : Nat) :
    (importSort dl).filter (fun d => d.order == k) =
      dl.filter (fun d => d.order == k) := by
  have hsub : List.Sublist (dl.filter (fun d => d.order == k))
      (List.mergeSort dl orderLE) := by
    apply List.sublist_mergeSort orderLE_trans orderLE_total
    · apply List.pairwise_of_forall_mem_list
      intro a ha b hb
      have ha2 := (List.mem_filter.mp ha).2
      have hb2 := (List.mem_filter.mp hb).2
      simp only [beq_iff_eq] at ha2 hb2
      simp [orderLE, ha2, hb2]
    · exact List.filter_sublist dl
  have hsame : ∀ a ∈ dl.filter (fun d => d.order == k),
      (fun d => d.order == k) a = true := fun a ha => (List.mem_filter.mp ha).2
  have hsub2 : List.Sublist (dl.filter (fun d => d.order == k))
      ((List.mergeSort dl orderLE).filter (fun d => d.order == k)) := by
    have := hsub.filter (fun d => d.order == k)
    rwa [List.filter_eq_self.mpr hsame] at this
  have hperm : ((List.mergeSort dl orderLE).filter
      (fun d => d.order == k)).Perm (dl.filter (fun d => d.order == k)) :=
    (List.mergeSort_perm dl orderLE).filter _
  exact ((hsub2.eq_of_length hperm.length_eq.symm).symm)

theorem sorted_zero_front {L : List ModEntryDTO}
    (h : L.Pairwise (fun a b => a.order ≤ b.order)) :
    L = L.filter (fun d => d.order == 0) ++
      L.filter (fun d => d.order != 0) := by
  induction L with
  | nil => rfl
  | cons a t ih =>
    rw [List.pairwise_cons] at h
    obtain ⟨ha, ht⟩ := h
    by_cases h0 : a.order = 0
    · have h1 : (a :: t).filter (fun d => d.order == 0) =
          a :: t.filter (fun d => d.order == 0) := by
        simp [List.filter_cons, h0]
      have h2 : (a :: t).filter (fun d => d.order != 0) =
          t.filter (fun d => d.order != 0) := by
        simp [List.filter_cons, h0]
      rw [h1, h2, List.cons_append, ← ih ht]
    · have h1 : (a :: t).filter (fun d => d.order == 0) = [] := by
        rw [List.filter_cons]
        simp only [beq_iff_eq, h0, if_false]
        apply List.filter_eq_nil_iff.mpr
        intro b hb
        have := ha b hb
        simp only [beq_iff_eq]
        omega
      have h2 : (a :: t).filter (fun d => d.order != 0) = a :: t := by
        rw [List.filter_cons]
        simp only [bne_iff_ne, ne_eq, h0, not_false_eq_true, if_true]
        congr 1
        apply List.filter_eq_self.mpr
        intro b hb
        have := ha b hb
        simp only [bne_iff_ne, ne_eq]
        omega
      rw [h1, h2, List.nil_append]

/-- C10: import sorts ascending by `order` with a stable sort: the result is
non-decreasing in `order`, records sharing an `order` value keep their
relative order from the input array, and records with the reserved value
`order = 0` are placed at the front (before all records with positive
order), not last. -/
theorem import_sort_stable (dl : List ModEntryDTO) :
    (importSort dl).Pairwise (fun a b => a.order ≤ b.order) ∧
    (∀ k : Nat, (importSort dl).filter (fun d => d.order == k) =
      dl.filter (fun d => d.order == k)) ∧
    importSort dl = dl.filter (fun d => d.order == 0) ++
      (importSort dl).filter (fun d => d.order != 0) := by
  have hsorted : (importSort dl).Pairwise (fun a b => a.order ≤ b.order) := by
    have := List.sorted_mergeSort orderLE_trans orderLE_total dl
    exact this.imp (fun hab => by simpa [orderLE] using hab)
  refine ⟨hsorted, importSort_filter_order dl, ?_⟩
  have hfront := sorted_zero_front hsorted
  rw [importSort_filter_order dl 0] at hfront
  exact hfront

theorem extractFirst_cons_self {u : String} {e : ModEntry} (he : e.uuid = u)
    (rest : List ModEntry) : extractFirst u (e :: rest) = some (e, rest) := by
  simp [extractFirst, he]

theorem orderByProfile_cons_some {u : String} {rest : List String}
    {pool : List ModEntry} {e : ModEntry} {pool2 : List ModEntry}
    (hm : extractFirst u pool = some (e, pool2)) :
    orderByProfile (u :: rest) pool =
      (e :: (orderByProfile rest pool2).1, (orderByProfile rest pool2).2) := by
  simp only [orderByProfile, hm]

theorem orderByProfile_cons_none {u : String} {rest : List String}
    {pool : List ModEntry} (hm : extractFirst u pool = none) :
    orderByProfile (u :: rest) pool = orderByProfile rest pool := by
  simp only [orderByProfile, hm]

theorem orderByProfile_fixpoint (ids : List String) (pool : List ModEntry) :
    orderByProfile ids
      ((orderByProfile ids pool).1 ++ (orderByProfile ids pool).2) =
      orderByProfile ids pool := by
  induction ids generalizing pool with
  | nil => simp [orderByProfile]
  | cons u rest ih =>
    cases hm : extractFirst u pool with
    | some pr =>
      obtain ⟨e, pool2⟩ := pr
      have he : e.uuid = u := (extractFirst_some_structure hm).1
      rw [orderByProfile_cons_some hm]
      dsimp only
      rw [List.cons_append]
      rw [orderByProfile_cons_some (extractFirst_cons_self he
        ((orderByProfile rest pool2).1 ++ (orderByProfile rest pool2).2))]
      rw [ih pool2]
    | none =>
      have hnone : extractFirst u
          ((orderByProfile rest pool).1 ++ (orderByProfile rest pool).2) =
            none := by
        apply extractFirst_eq_none_of_forall
        intro e he2
        exact forall_of_extractFirst_eq_none hm e
          ((orderByProfile_perm rest pool).mem_iff.mp he2)
      rw [orderByProfile_cons_none hm, orderByProfile_cons_none hnone, ih pool]

theorem mem_claimedPool_active {l : List ModEntry} {p : ModProfile}
    {m : ModEntry} (h : m ∈ claimedPool l p) :
    m.active = true ∧ p.active_mods.contains m.uuid = true := by
  rw [claimedPool_eq] at h
  obtain ⟨m0, hm0, rfl⟩ := List.mem_map.mp h
  have hc := (List.mem_filter.mp hm0).2
  exact ⟨rfl, by simpa using hc⟩

theorem mem_unclaimedPart_inactive {l : List ModEntry} {p : ModProfile}
    {m : ModEntry} (h : m ∈ unclaimedPart l p) :
    m.active = false ∧ p.active_mods.contains m.uuid = false := by
  rw [unclaimedPart_eq] at h
  obtain ⟨m0, hm0, rfl⟩ := List.mem_map.mp h
  have hc := (List.mem_filter.mp hm0).2
  simp only [Bool.not_eq_eq_eq_not, Bool.not_true] at hc
  exact ⟨rfl, by simpa using hc⟩

theorem entry_set_active_self {m : ModEntry} (h : m.active = true) :
    { m with active := true } = m := by
  cases m
  cases h
  rfl

theorem entry_set_inactive_self {m : ModEntry} (h : m.active = false) :
    { m with active := false } = m := by
  cases m
  cases h
  rfl

/-- C5: applying the same profile twice gives the same result as applying it
once: `apply_profile(apply_profile(L, P), P) = apply_profile(L, P)`. -/
theorem apply_profile_idempotent (l : List ModEntry) (p : ModProfile) :
    applyProfile (applyProfile l p) p = applyProfile l p := by
  have hFS : ∀ m ∈ (orderByProfile p.active_mods (claimedPool l p)).1 ++
      (orderByProfile p.active_mods (claimedPool l p)).2,
      m.active = true ∧ p.active_mods.contains m.uuid = true := by
    intro m hm
    exact mem_claimedPool_active
      ((orderByProfile_perm p.active_mods (claimedPool l p)).mem_iff.mp hm)
  have hcl : claimedPool (applyProfile l p) p =
      (orderByProfile p.active_mods (claimedPool l p)).1 ++
      (orderByProfile p.active_mods (claimedPool l p)).2 := by
    rw [claimedPool_eq, applyProfile_eq, List.filter_append]
    rw [List.filter_eq_self.mpr (fun m hm => (hFS m hm).2)]
    rw [List.filter_eq_nil_iff.mpr
      (fun m hm => by simpa using (mem_unclaimedPart_inactive hm).2)]
    rw [List.append_nil]
    rw [List.map_congr_left (fun m hm => entry_set_active_self (hFS m hm).1)]
    exact List.map_id _
  have hun : unclaimedPart (applyProfile l p) p = unclaimedPart l p := by
    rw [unclaimedPart_eq, applyProfile_eq, List.filter_append]
    rw [List.filter_eq_nil_iff.mpr
      (fun m hm => by simpa using (hFS m hm).2)]
    rw [List.filter_eq_self.mpr
      (fun m hm => by simpa using (mem_unclaimedPart_inactive hm).2)]
    rw [List.nil_append]
    rw [List.map_congr_left
      (fun m hm => entry_set_inactive_self (mem_unclaimedPart_inactive hm).1)]
    exact List.map_id _
  rw [applyProfile_eq (applyProfile l p) p, hcl, hun,
    orderByProfile_fixpoint p.active_mods (claimedPool l p),
    ← applyProfile_eq]

theorem unclaimedSpec_eq_unclaimedPart (l : List ModEntry) (p : ModProfile) :
    unclaimedSpec l p = unclaimedPart l p :=
  (unclaimedPart_eq l p).symm

theorem dedupFirst_sublist : ∀ X : List String,
    List.Sublist (dedupFirst X) X
  | [] => by
    rw [dedupFirst]
  | u :: rest => by
    rw [dedupFirst]
    exact List.Sublist.cons₂ u
      ((dedupFirst_sublist (rest.filter (fun v => v ≠ u))).trans
        (List.filter_sublist rest))
termination_by X => X.length
decreasing_by
  simp only [List.length_cons]
  exact Nat.lt_succ_of_le (List.length_filter_le _ rest)

theorem mem_of_mem_dedupFirst {v : String} {X : List String}
    (h : v ∈ dedupFirst X) : v ∈ X :=
  (dedupFirst_sublist X).mem h

theorem find?_append_cons {q : ModEntry → Bool} (l1 : List ModEntry)
    (e : ModEntry) (l2 : List ModEntry) (h1 : ∀ x ∈ l1, ¬ q x = true)
    (he : q e = true) : (l1 ++ e :: l2).find? q = some e := by
  induction l1 with
  | nil =>
    rw [List.nil_append]
    exact List.find?_cons_of_pos l2 he
  | cons a t ih =>
    rw [List.cons_append, List.find?_cons_of_neg _ (h1 a (List.mem_cons_self a t))]
    exact ih (fun x hx => h1 x (List.mem_cons_of_mem a hx))

theorem find?_middle_ne {q : ModEntry → Bool} (l1 : List ModEntry)
    (e : ModEntry) (l2 : List ModEntry) (he : ¬ q e = true) :
    (l1 ++ e :: l2).find? q = (l1 ++ l2).find? q := by
  induction l1 with
  | nil =>
    rw [List.nil_append, List.nil_append, List.find?_cons_of_neg _ he]
  | cons a t ih =>
    by_cases ha : q a = true
    · rw [List.cons_append, List.cons_append, List.find?_cons_of_pos _ ha,
        List.find?_cons_of_pos _ ha]
    · rw [List.cons_append, List.cons_append, List.find?_cons_of_neg _ ha,
        List.find?_cons_of_neg _ ha]
      exact ih

theorem find?_filter_of_imp {q c : ModEntry → Bool} (l : List ModEntry)
    (h : ∀ m, q m = true → c m = true) :
    (l.filter c).find? q = l.find? q := by
  induction l with
  | nil => rfl
  | cons a t ih =>
    by_cases hc : c a = true
    · rw [List.filter_cons_of_pos hc]
      by_cases hq : q a = true
      · rw [List.find?_cons_of_pos _ hq, List.find?_cons_of_pos _ hq]
      · rw [List.find?_cons_of_neg _ hq, List.find?_cons_of_neg _ hq, ih]
    · have hq : ¬ q a = true := fun hq2 => hc (h a hq2)
      rw [List.filter_cons_of_neg hc, List.find?_cons_of_neg _ hq, ih]

theorem extractFirst_nodup_facts {u : String} {pool : List ModEntry}
    {e : ModEntry} {pool2 : List ModEntry}
    (hm : extractFirst u pool = some (e, pool2))
    (hn : (pool.map (fun m => m.uuid)).Nodup) :
    (pool2.map (fun m => m.uuid)).Nodup ∧
      u ∉ pool2.map (fun m => m.uuid) := by
  have hperm := (extractFirst_perm hm).map (fun m => m.uuid)
  have hn2 := hperm.nodup_iff.mp hn
  rw [List.map_cons, List.nodup_cons] at hn2
  obtain ⟨hnotin, htail⟩ := hn2
  have he := (extractFirst_some_structure hm).1
  exact ⟨htail, he ▸ hnotin⟩

theorem extractFirst_uuid_iff {u : String} {pool : List ModEntry}
    {e : ModEntry} {pool2 : List ModEntry}
    (hm : extractFirst u pool = some (e, pool2))
    (hn : (pool.map (fun m => m.uuid)).Nodup) :
    ∀ w : String, w ∈ pool2.map (fun m => m.uuid) ↔
      (w ∈ pool.map (fun m => m.uuid) ∧ w ≠ u) := by
  intro w
  obtain ⟨hn2, hu2⟩ := extractFirst_nodup_facts hm hn
  have hperm := (extractFirst_perm hm).map (fun m => m.uuid)
  have he := (extractFirst_some_structure hm).1
  rw [List.map_cons, he] at hperm
  constructor
  · intro hw
    refine ⟨hperm.mem_iff.mpr (List.mem_cons_of_mem u hw), ?_⟩
    intro hequ
    exact hu2 (hequ ▸ hw)
  · intro hw
    rcases List.mem_cons.mp (hperm.mem_iff.mp hw.1) with hequ | hmem
    · exact absurd hequ hw.2
    · exact hmem

theorem orderByProfile_snd_nil (ids : List String) :
    ∀ pool : List ModEntry,
    (pool.map (fun m => m.uuid)).Nodup →
    (∀ m ∈ pool, m.uuid ∈ ids) →
    (orderByProfile ids pool).2 = [] := by
  induction ids with
  | nil =>
    intro pool _ hall
    cases pool with
    | nil => rfl
    | cons a t =>
      exact absurd (hall a (List.mem_cons_self a t)) (List.not_mem_nil a.uuid)
  | cons u rest ih =>
    intro pool hn hall
    cases hm : extractFirst u pool with
    | some pr =>
      obtain ⟨e, pool2⟩ := pr
      rw [orderByProfile_cons_some hm]
      dsimp only
      obtain ⟨hn2, hu2⟩ := extractFirst_nodup_facts hm hn
      apply ih pool2 hn2
      intro m hm2
      have hmem : m ∈ pool :=
        (extractFirst_perm hm).mem_iff.mpr (List.mem_cons_of_mem e hm2)
      rcases List.mem_cons.mp (hall m hmem) with hequ | hrest
      · exact absurd (hequ ▸ List.mem_map_of_mem (fun m => m.uuid) hm2) hu2
      · exact hrest
    | none =>
      rw [orderByProfile_cons_none hm]
      apply ih pool hn
      intro m hm2
      rcases List.mem_cons.mp (hall m hm2) with hequ | hrest
      · exact absurd hequ (forall_of_extractFirst_eq_none hm m hm2)
      · exact hrest

theorem orderByProfile_fst_nodup (ids : List String) :
    ∀ pool : List ModEntry,
    (pool.map (fun m => m.uuid)).Nodup →
    (orderByProfile ids pool).1 =
      (dedupFirst (ids.filter
          (fun u => (pool.map (fun m => m.uuid)).contains u))).filterMap
        (fun u => pool.find? (fun m => m.uuid == u)) := by
  induction ids with
  | nil =>
    intro pool _
    simp [orderByProfile, dedupFirst]
  | cons u rest ih =>
    intro pool hn
    by_cases hpres : u ∈ pool.map (fun m => m.uuid)
    · cases hm : extractFirst u pool with
      | none =>
        obtain ⟨m, hmem, hmu⟩ := List.mem_map.mp hpres
        exact absurd hm (extractFirst_ne_none_of_mem hmem hmu)
      | some pr =>
        obtain ⟨e, pool2⟩ := pr
        obtain ⟨he, l1, l2, hpool, hpool2, hl1⟩ := extractFirst_some_structure hm
        obtain ⟨hn2, hu2⟩ := extractFirst_nodup_facts hm hn
        rw [orderByProfile_cons_some hm]
        dsimp only
        have hpresb : ((pool.map (fun m => m.uuid)).contains u) = true := by
          simpa using hpres
        rw [List.filter_cons_of_pos hpresb, dedupFirst]
        have hfind : pool.find? (fun m => m.uuid == u) = some e := by
          rw [hpool]
          apply find?_append_cons
          · intro x hx
            simpa using hl1 x hx
          · simpa using he
        rw [List.filterMap_cons]
        simp only [hfind]
        congr 1
        have hfilters : (rest.filter
            (fun v => (pool.map (fun m => m.uuid)).contains v)).filter
              (fun v => v ≠ u) =
            rest.filter
              (fun v => (pool2.map (fun m => m.uuid)).contains v) := by
          rw [List.filter_filter]
          apply List.filter_congr
          intro v hv
          have hiff := extractFirst_uuid_iff hm hn v
          by_cases h1 : v = u
          · subst h1
            have hnot : v ∉ pool2.map (fun m => m.uuid) := hu2
            simp [hnot]
          · by_cases h2 : v ∈ pool.map (fun m => m.uuid)
            · have hmemb : v ∈ pool2.map (fun m => m.uuid) :=
                hiff.mpr ⟨h2, h1⟩
              simp [h1, h2, hmemb]
            · have hnot : v ∉ pool2.map (fun m => m.uuid) :=
                fun hc => h2 (hiff.mp hc).1
              simp [h1, h2, hnot]
        rw [hfilters, ih pool2 hn2]
        apply List.filterMap_congr
        intro v hv
        have hv2 : v ∈ rest.filter
            (fun v => (pool2.map (fun m => m.uuid)).contains v) :=
          mem_of_mem_dedupFirst hv
        have hvp : v ∈ pool2.map (fun m => m.uuid) := by
          have := (List.mem_filter.mp hv2).2
          simpa using this
        have hvne : ¬ (e.uuid == v) = true := by
          simp only [beq_iff_eq]
          intro hev
          exact hu2 ((he ▸ hev) ▸ hvp)
        rw [hpool, hpool2]
        exact (find?_middle_ne l1 e l2 hvne).symm
    · have hm : extractFirst u pool = none := by
        apply extractFirst_eq_none_of_forall
        intro e he hequ
        exact hpres (hequ ▸ List.mem_map_of_mem (fun m => m.uuid) he)
      rw [orderByProfile_cons_none hm]
      have hpresb : ¬ ((pool.map (fun m => m.uuid)).contains u) = true := by
        simpa using hpres
      rw [List.filter_cons_of_neg hpresb]
      exact ih pool hn

theorem claimedPool_map_uuid (l : List ModEntry) (p : ModProfile) :
    (claimedPool l p).map (fun m => m.uuid) =
      (l.filter (fun m => p.active_mods.contains m.uuid)).map
        (fun m => m.uuid) := by
  rw [claimedPool_eq, List.map_map]
  rfl

theorem claimedPool_uuid_nodup {l : List ModEntry} {p : ModProfile}
    (h : (l.map (fun m => m.uuid)).Nodup) :
    ((claimedPool l p).map (fun m => m.uuid)).Nodup := by
  rw [claimedPool_map_uuid]
  exact List.Nodup.sublist ((List.filter_sublist l).map (fun m => m.uuid)) h

theorem claimedPool_contains_iff {l : List ModEntry} {p : ModProfile}
    {u : String} (hu : u ∈ p.active_mods) :
    u ∈ (claimedPool l p).map (fun m => m.uuid) ↔
      u ∈ l.map (fun m => m.uuid) := by
  rw [claimedPool_map_uuid]
  constructor
  · intro h
    obtain ⟨m, hm, rfl⟩ := List.mem_map.mp h
    exact List.mem_map_of_mem _ (List.mem_of_mem_filter hm)
  · intro h
    obtain ⟨m, hm, rfl⟩ := List.mem_map.mp h
    apply List.mem_map_of_mem
    apply List.mem_filter.mpr
    exact ⟨hm, by simpa using hu⟩

theorem claimedPool_find? {l : List ModEntry} {p : ModProfile} {u : String}
    (hu : u ∈ p.active_mods) :
    (claimedPool l p).find? (fun m => m.uuid == u) =
      (l.find? (fun m => m.uuid == u)).map
        (fun m => { m with active := true }) := by
  rw [claimedPool_eq, List.find?_map]
  have hcomp : ((fun m => m.uuid == u) ∘
      (fun m => ({ m with active := true } : ModEntry))) =
      (fun m : ModEntry => m.uuid == u) := rfl
  rw [hcomp, find?_filter_of_imp]
  intro m hm
  have hmu : m.uuid = u := by simpa using hm
  rw [hmu]
  simpa using hu

/-- C1: in the result of `apply_profile(L, P)`, the entries claimed by the
profile come first (∃ act ... with all members claimed), followed by the
unclaimed entries of L in their original relative order, deactivated; and
under the uniqueness invariant on L's identifiers the claimed prefix is
ordered exactly as P's identifier sequence restricted to identifiers present
in L (no leftover remains in that case). -/
theorem apply_profile_order_correct (l : List ModEntry) (p : ModProfile) :
    (∃ act, applyProfile l p = act ++ unclaimedSpec l p ∧
      ∀ m ∈ act, p.active_mods.contains m.uuid = true) ∧
    ((l.map (fun m => m.uuid)).Nodup →
      applyProfile l p = claimedSpec l p ++ unclaimedSpec l p) := by
  constructor
  · refine ⟨(orderByProfile p.active_mods (claimedPool l p)).1 ++
      (orderByProfile p.active_mods (claimedPool l p)).2, ?_, ?_⟩
    · rw [applyProfile_eq, unclaimedSpec_eq_unclaimedPart]
    · intro m hm
      exact (mem_claimedPool_active
        ((orderByProfile_perm _ _).mem_iff.mp hm)).2
  · intro hnodup
    have hn2 := claimedPool_uuid_nodup (p := p) hnodup
    have hsnd : (orderByProfile p.active_mods (claimedPool l p)).2 = [] := by
      apply orderByProfile_snd_nil p.active_mods (claimedPool l p) hn2
      intro m hm
      simpa using (mem_claimedPool_active hm).2
    have hfst : (orderByProfile p.active_mods (claimedPool l p)).1 =
        claimedSpec l p := by
      rw [orderByProfile_fst_nodup p.active_mods (claimedPool l p) hn2]
      unfold claimedSpec
      have hfilter : p.active_mods.filter
          (fun u => ((claimedPool l p).map (fun m => m.uuid)).contains u) =
          p.active_mods.filter
          (fun u => (l.map (fun m => m.uuid)).contains u) := by
        apply List.filter_congr
        intro u hu
        have hiff := claimedPool_contains_iff (l := l) hu
        by_cases h2 : u ∈ l.map (fun m => m.uuid)
        · have h3 := hiff.mpr h2
          simp [h2, h3]
        · have h3 : u ∉ (claimedPool l p).map (fun m => m.uuid) :=
            fun hc => h2 (hiff.mp hc)
          simp [h2, h3]
      rw [hfilter]
      apply List.filterMap_congr
      intro u hu
      exact claimedPool_find?
        (List.mem_of_mem_filter (mem_of_mem_dedupFirst hu))
    rw [applyProfile_eq, hsnd, hfst, List.append_nil,
      unclaimedSpec_eq_unclaimedPart]

/-- Witness for C1 on the repository's test data (which has unique
identifiers). -/
theorem apply_profile_order_correct_witness :
    (([sampleEntry, sampleEntry2].map (fun m => m.uuid)).Nodup) ∧
    applyProfile [sampleEntry, sampleEntry2] sampleProfile =
      claimedSpec [sampleEntry, sampleEntry2] sampleProfile ++
      unclaimedSpec [sampleEntry, sampleEntry2] sampleProfile :=
  ⟨by decide,
    (apply_profile_order_correct [sampleEntry, sampleEntry2]
      sampleProfile).2 (by decide)⟩

/-- Counterexample to the profile-storage-key claim as stated: for the name
`my.profile` (which contains a dot), `set_extension` truncates at the last
dot, so the profile is stored as `my.toml` and listing yields `my`, not
`my.profile`. -/
theorem profile_name_round_trip_cex :
    listProfiles [resolveProfileFileName ("my.profile".toList)] =
      [("my".toList)] ∧
    listProfiles [resolveProfileFileName ("my.profile".toList)] ≠
      [("my.profile".toList)] := by
  constructor
  · decide
  · decide

theorem lastDot_eq_none {n : List Char} (h : '.' ∉ n) : lastDot n = none := by
  induction n with
  | nil => rfl
  | cons c rest ih =>
    have hc : c ≠ '.' := fun he => h (he ▸ List.mem_cons_self c rest)
    have hr : lastDot rest = none := ih (fun hm => h (List.mem_cons_of_mem c hm))
    simp [lastDot, hr, hc]

theorem lastDot_append_toml {n : List Char} (h : '.' ∉ n) :
    lastDot (n ++ '.' :: "toml".toList) = some n.length := by
  induction n with
  | nil => decide
  | cons c rest ih =>
    have hr := ih (fun hm => h (List.mem_cons_of_mem c hm))
    simp only [List.cons_append, lastDot, List.append_eq, hr, List.length_cons]

theorem setExtensionToml_no_dot {n : List Char} (h : '.' ∉ n) :
    setExtensionToml n = n ++ '.' :: "toml".toList := by
  unfold setExtensionToml
  rw [lastDot_eq_none h]

theorem extensionOf_append_toml {n : List Char} (hne : n ≠ [])
    (h : '.' ∉ n) :
    extensionOf (n ++ '.' :: "toml".toList) = some ("toml".toList) := by
  unfold extensionOf
  rw [lastDot_append_toml h]
  dsimp only
  have hpos : 0 < n.length := List.length_pos.mpr hne
  rw [if_pos hpos]
  congr 1
  have hsplit : n ++ '.' :: "toml".toList = (n ++ ['.']) ++ "toml".toList := by
    simp
  rw [hsplit]
  have hlen : n.length + 1 = (n ++ ['.']).length := by simp
  rw [hlen, List.drop_left]

theorem stripToml_cons_ne {c : Char} (hc : c ≠ '.') (xs : List Char) :
    stripToml (c :: xs) = c :: stripToml xs := by
  rw [stripToml.eq_def]
  split
  · rename_i heq
    rw [List.cons.injEq] at heq
    exact absurd heq.1 hc
  · rename_i c2 rest2 heq
    rw [List.cons.injEq] at heq
    rw [heq.1, heq.2]
  · rename_i heq
    exact absurd heq (List.cons_ne_nil c xs)

theorem stripToml_append {n : List Char} (h : '.' ∉ n) :
    stripToml (n ++ '.' :: "toml".toList) = n := by
  induction n with
  | nil => rfl
  | cons c rest ih =>
    have hc : c ≠ '.' := fun he => h (he ▸ List.mem_cons_self c rest)
    have hr := ih (fun hm => h (List.mem_cons_of_mem c hm))
    rw [List.cons_append, stripToml_cons_ne hc, hr]

/-- Amended profile-storage-key claim: for every nonempty profile name with
no dot character, saving the profile and then listing profiles yields the
name (the round trip is the identity); names containing a dot are truncated
at their last dot by `set_extension`, as the counterexample shows. -/
theorem profile_name_round_trip_no_dot (n : List Char) (hne : n ≠ [])
    (hdot : '.' ∉ n) :
    listProfiles [resolveProfileFileName n] = [n] := by
  unfold listProfiles resolveProfileFileName
  rw [setExtensionToml_no_dot hdot]
  have hext := extensionOf_append_toml hne hdot
  have hbeq : (extensionOf (n ++ '.' :: "toml".toList) ==
      some ("toml".toList)) = true := by
    rw [hext]
    simp
  simp only [List.filter_cons, hbeq, if_true, List.filter_nil,
    List.map_cons, List.map_nil]
  rw [stripToml_append hdot]

/-- Witness for the amended profile-storage-key claim. -/
theorem profile_name_round_trip_no_dot_witness :
    (("someprofile".toList : List Char) ≠ [] ∧
      '.' ∉ ("someprofile".toList : List Char)) ∧
    listProfiles [resolveProfileFileName ("someprofile".toList)] =
      [("someprofile".toList)] :=
  ⟨⟨by decide, by decide⟩,
    profile_name_round_trip_no_dot ("someprofile".toList) (by decide)
      (by decide)⟩

end Jankloada
